import Mathlib

/-!
# Verification of the Gaussian Process Classifier (`GP.ipynb`)

Shallow embedding, over the exact reals, of the `GPC` class of the
repository's notebook: the squared-exponential kernel, the covariance
helper `K_`, the Bernoulli weight matrix `W_`, the Newton/fixed-point
posterior-mode solver, the Laplace negative-log-marginal-likelihood
objective `nll_fn`, and the predictive accessors `mean_var`, `predict`
and `predict_params`, together with the stateful lifecycle of a model
object (`__init__`, `fit`).

Conventions of the embedding:

* `numpy` arrays of shape `(n, d)` become `Matrix (Fin n) (Fin d) ℝ`;
  column vectors of shape `(n, 1)` (and raveled `(n,)` arrays) become
  `Fin n → ℝ`.  Machine floats are modelled by exact reals.
* `np.linalg.pinv` (the Moore–Penrose pseudo-inverse) is kept as an
  explicit parameter `pinv` of every definition that uses it; theorems
  that need the one defining property relevant here — that the
  pseudo-inverse of an invertible matrix is its inverse — take it as a
  hypothesis on `pinv`.
* `np.linalg.inv` raises on a singular input and otherwise returns the
  inverse; it is modelled by Mathlib's total `Matrix.inv`, which agrees
  with it on every input where `np.linalg.inv` returns.
* `theta` is array-like of length 2; it becomes a pair `ℝ × ℝ` with
  `theta.1` the length scale (`theta[0]`) and `theta.2` the signal
  standard deviation (`theta[1]`).
-/

noncomputable section

open Matrix Finset

/-- Embeds `scipy.special.expit`: `sigmoid x = 1 / (1 + exp (-x))`. -/
def sigmoid (x : ℝ) : ℝ := 1 / (1 + Real.exp (-x))

/-- Embeds the intermediate `sqdist` of `GPC.exp_kernel`:
`np.sum(X1 ** 2, 1).reshape(-1, 1) + np.sum(X2 ** 2, 1) - 2 * np.dot(X1, X2.T)`,
entrywise: `sqdist[i,j] = Σ_l X1[i,l]² + Σ_l X2[j,l]² - 2·(X1 X2ᵀ)[i,j]`. -/
def sqdist {m n d : ℕ} (X1 : Matrix (Fin m) (Fin d) ℝ) (X2 : Matrix (Fin n) (Fin d) ℝ) :
    Matrix (Fin m) (Fin n) ℝ :=
  fun i j => (∑ l, X1 i l ^ 2) + (∑ l, X2 j l ^ 2) - 2 * (X1 * X2ᵀ) i j

/-- Embeds `GPC.exp_kernel`: isotropic squared exponential kernel,
`theta[1] ** 2 * np.exp(-0.5 / theta[0] ** 2 * sqdist)`. -/
def exp_kernel {m n d : ℕ} (X1 : Matrix (Fin m) (Fin d) ℝ) (X2 : Matrix (Fin n) (Fin d) ℝ)
    (theta : ℝ × ℝ) : Matrix (Fin m) (Fin n) ℝ :=
  fun i j => theta.2 ^ 2 * Real.exp (-0.5 / theta.1 ^ 2 * sqdist X1 X2 i j)

/-- Embeds `GPC.K_` with `diag_only=False`: `self.exp_kernel(X, X, theta) + nu * np.eye(X.shape[0])`.
Every call site in the source uses the default jitter `nu = 1e-5`. -/
def K_ {n d : ℕ} (X : Matrix (Fin n) (Fin d) ℝ) (theta : ℝ × ℝ) (nu : ℝ) :
    Matrix (Fin n) (Fin n) ℝ :=
  exp_kernel X X theta + nu • (1 : Matrix (Fin n) (Fin n) ℝ)

/-- Embeds `GPC.K_` with `diag_only=True`: the branch returns the scalar
`theta[1] ** 2 + nu`, the position-independent self-covariance of the
isotropic squared exponential kernel (the argument `X` is not used). -/
def K_diag (theta : ℝ × ℝ) (nu : ℝ) : ℝ := theta.2 ^ 2 + nu

/-- Embeds `GPC.W_`: `np.diag(sigmoid(a) * (1 - sigmoid(a)))`. -/
def W_ {n : ℕ} (a : Fin n → ℝ) : Matrix (Fin n) (Fin n) ℝ :=
  Matrix.diagonal fun i => sigmoid (a i) * (1 - sigmoid (a i))

/-- One iteration of the loop body of `GPC.posterior_mode`:
`W = self.W_(a_h)`, `Q_inv = np.linalg.pinv(I + W @ K_a)`,
`a_h_new = (K_a @ Q_inv).dot(y - sigmoid(a_h) + W.dot(a_h))`. -/
def pm_step {n : ℕ} (pinv : Matrix (Fin n) (Fin n) ℝ → Matrix (Fin n) (Fin n) ℝ)
    (y : Fin n → ℝ) (K_a : Matrix (Fin n) (Fin n) ℝ) (a_h : Fin n → ℝ) : Fin n → ℝ :=
  let W := W_ a_h
  let Q_inv := pinv (1 + W * K_a)
  (K_a * Q_inv) *ᵥ fun i => y i - sigmoid (a_h i) + (W *ᵥ a_h) i

open Classical in
/-- The `for i in range(max_iter)` loop of `GPC.posterior_mode`, as fuel
recursion.  Each pass computes `a_h_new`, the coordinatewise difference
`a_h_diff = |a_h_new - a_h|`, rebinds `a_h = a_h_new`, and breaks when
`not np.any(a_h_diff > tol)`. -/
def pm_loop {n : ℕ} (pinv : Matrix (Fin n) (Fin n) ℝ → Matrix (Fin n) (Fin n) ℝ)
    (y : Fin n → ℝ) (K_a : Matrix (Fin n) (Fin n) ℝ) (tol : ℝ) :
    ℕ → (Fin n → ℝ) → (Fin n → ℝ)
  | 0, a_h => a_h
  | fuel + 1, a_h =>
    let a_h_new := pm_step pinv y K_a a_h
    if ∃ i, tol < |a_h_new i - a_h i| then pm_loop pinv y K_a tol fuel a_h_new
    else a_h_new

/-- Embeds `GPC.posterior_mode`: starts from `a_h = np.zeros_like(y)` and runs the
Newton/fixed-point loop.  The argument `X` is used by the source only for
`np.eye(X.shape[0])`, whose size the index type `Fin n` already carries.
The source defaults are `max_iter = 10`, `tol = 1e-9`; call sites inside
the class pass neither, so the embedded call sites use those values. -/
def posterior_mode {n d : ℕ} (pinv : Matrix (Fin n) (Fin n) ℝ → Matrix (Fin n) (Fin n) ℝ)
    (X : Matrix (Fin n) (Fin d) ℝ) (y : Fin n → ℝ) (K_a : Matrix (Fin n) (Fin n) ℝ)
    (max_iter : ℕ) (tol : ℝ) : Fin n → ℝ :=
  pm_loop pinv y K_a tol max_iter (fun _ => 0)

/-- Embeds component `[1]` of `np.linalg.slogdet`: `np.linalg.slogdet M` returns the pair `(sign, log |det M|)`; the
source only ever uses component `[1]`, the log of the absolute value of
the determinant. -/
def slogdet_logabsdet {n : ℕ} (M : Matrix (Fin n) (Fin n) ℝ) : ℝ :=
  Real.log |M.det|

/-- Embeds `GPC.nll_fn`: returns the negative-log-marginal-likelihood objective
(a function of `theta`) for fixed training data `X`, `y`.  The source
ravels `y` and the solver output; vectors are already flat here. -/
def nll_fn {n d : ℕ} (pinv : Matrix (Fin n) (Fin n) ℝ → Matrix (Fin n) (Fin n) ℝ)
    (X : Matrix (Fin n) (Fin d) ℝ) (y : Fin n → ℝ) : (ℝ × ℝ) → ℝ :=
  fun theta =>
    let K_a := K_ X theta (1e-5)
    let K_a_inv := K_a⁻¹
    let a_h := posterior_mode pinv X y K_a 10 (1e-9)
    let W := W_ a_h
    let ll :=
      (-0.5 * (Matrix.vecMul a_h K_a_inv ⬝ᵥ a_h)
        - 0.5 * slogdet_logabsdet K_a
        - 0.5 * slogdet_logabsdet (W + K_a_inv)
        + y ⬝ᵥ a_h
        - ∑ i, Real.log (1 + Real.exp (a_h i)))
    Neg.neg ll

/-- The body of `GPC.mean_var` with the instance fields made explicit:
the source reads `self.X`, `self.y`, `self.theta` and uses
`np.linalg.pinv` for both `W_inv` and `R_inv`.  Returns the pair
`(a_test_mu, a_test_var)`; `np.sum((R_inv @ K_s) * K_s, axis=0)` is the
columnwise sum of the entrywise product. -/
def mean_var_core {n d m : ℕ} (pinv : Matrix (Fin n) (Fin n) ℝ → Matrix (Fin n) (Fin n) ℝ)
    (X : Matrix (Fin n) (Fin d) ℝ) (y : Fin n → ℝ) (theta : ℝ × ℝ)
    (X_test : Matrix (Fin m) (Fin d) ℝ) : (Fin m → ℝ) × (Fin m → ℝ) :=
  let K_a := K_ X theta (1e-5)
  let K_s := exp_kernel X X_test theta
  let a_h := posterior_mode pinv X y K_a 10 (1e-9)
  let W_inv := pinv (W_ a_h)
  let R_inv := pinv (W_inv + K_a)
  let a_test_mu := K_sᵀ *ᵥ fun i => y i - sigmoid (a_h i)
  let a_test_var := fun j => K_diag theta (1e-5) - ∑ i, (R_inv * K_s) i j * K_s i j
  (a_test_mu, a_test_var)

/-- The body of `GPC.predict` after the `self.mean_var` call:
`kappa = 1.0 / np.sqrt(1.0 + np.pi * a_var / 8)`, result
`sigmoid(kappa * a_mu)`. -/
def predict_core {m : ℕ} (mv : (Fin m → ℝ) × (Fin m → ℝ)) : Fin m → ℝ :=
  fun j => sigmoid ((1 / Real.sqrt (1 + Real.pi * mv.2 j / 8)) * mv.1 j)

/-- The body of `GPC.predict_params` with the instance fields made
explicit.  Two divergences from `mean_var` are preserved faithfully:
the method reads the module-level variable `y` (argument `moduleY`
here), not `self.y` — both for the posterior-mode call and for the
residual in `a_test_mu` — and computes `W_inv`, `R_inv` with
`np.linalg.inv` (embedded as `Matrix.inv`) instead of `np.linalg.pinv`. -/
def predict_params_core {n d m : ℕ}
    (pinv : Matrix (Fin n) (Fin n) ℝ → Matrix (Fin n) (Fin n) ℝ)
    (X : Matrix (Fin n) (Fin d) ℝ) (moduleY : Fin n → ℝ) (theta : ℝ × ℝ)
    (X_test : Matrix (Fin m) (Fin d) ℝ) : (Fin m → ℝ) × (Fin m → ℝ) :=
  let K_a := K_ X theta (1e-5)
  let K_s := exp_kernel X X_test theta
  let a_h := posterior_mode pinv X moduleY K_a 10 (1e-9)
  let W_inv := (W_ a_h)⁻¹
  let R_inv := (W_inv + K_a)⁻¹
  let a_test_mu := K_sᵀ *ᵥ fun i => moduleY i - sigmoid (a_h i)
  let a_test_var := fun j => K_diag theta (1e-5) - ∑ i, (R_inv * K_s) i j * K_s i j
  (a_test_mu, a_test_var)

/-- Errors surfaced by the model object.  `attributeError` models
Python's `AttributeError` on reading an attribute that was never
assigned: it is how the code realizes the spec's `NotFittedError`
condition (reading `self.X` / `self.y` / `self.theta` before `fit`).
`linAlgError` stands for a failure propagating out of the external
optimizer run inside `fit` (e.g. a singular exact inverse inside the
objective). -/
inductive PyError where
  | attributeError : PyError
  | linAlgError : PyError

/-- The `GPC` object state: the Python instance attributes `X`, `y`,
`theta`.  `none` models an attribute that is either not yet assigned
(reading it raises `AttributeError`) or, for `theta`, still holding the
`__init__` placeholder `None` (arithmetic on it would fail just as
loudly); the shape parameters `n`, `d` are phantom when all fields are
`none`. -/
structure GPC (n d : ℕ) where
  X : Option (Matrix (Fin n) (Fin d) ℝ)
  y : Option (Fin n → ℝ)
  theta : Option (ℝ × ℝ)

/-- Embeds `GPC.__init__`: the only attribute assigned is `self.theta = None`;
`self.X` and `self.y` do not exist yet. -/
def GPC.init (n d : ℕ) : GPC n d := ⟨none, none, none⟩

/-- Embeds `GPC.mean_var` as a method: returns the post-call object state
(unchanged — the body only reads `self`) together with the result, or
the error raised on a missing attribute. -/
def GPC.mean_var {n d m : ℕ} (pinv : Matrix (Fin n) (Fin n) ℝ → Matrix (Fin n) (Fin n) ℝ)
    (g : GPC n d) (X_test : Matrix (Fin m) (Fin d) ℝ) :
    GPC n d × Except PyError ((Fin m → ℝ) × (Fin m → ℝ)) :=
  match g.X, g.y, g.theta with
  | some X, some y, some theta => (g, .ok (mean_var_core pinv X y theta X_test))
  | _, _, _ => (g, .error .attributeError)

/-- Embeds `GPC.predict` as a method: calls `self.mean_var` and applies the
probit-correction transformation; a raised error propagates. -/
def GPC.predict {n d m : ℕ} (pinv : Matrix (Fin n) (Fin n) ℝ → Matrix (Fin n) (Fin n) ℝ)
    (g : GPC n d) (X_test : Matrix (Fin m) (Fin d) ℝ) :
    GPC n d × Except PyError (Fin m → ℝ) :=
  match GPC.mean_var pinv g X_test with
  | (g1, .ok mv) => (g1, .ok (predict_core mv))
  | (g1, .error e) => (g1, .error e)

/-- Embeds `GPC.predict_params` as a method: reads `self.X` and `self.theta`
(but not `self.y` — the free module-level `y` is the extra argument
`moduleY`). -/
def GPC.predict_params {n d m : ℕ}
    (pinv : Matrix (Fin n) (Fin n) ℝ → Matrix (Fin n) (Fin n) ℝ)
    (g : GPC n d) (moduleY : Fin n → ℝ) (X_test : Matrix (Fin m) (Fin d) ℝ) :
    GPC n d × Except PyError ((Fin m → ℝ) × (Fin m → ℝ)) :=
  match g.X, g.theta with
  | some X, some theta => (g, .ok (predict_params_core pinv X moduleY theta X_test))
  | _, _ => (g, .error .attributeError)

/-- Embeds `GPC.fit`: assigns `self.X = X` and `self.y = y` first, then runs the
external bounded minimizer on `self.nll_fn(X, y)`; only if that call
returns does it assign `self.theta = res.x`.  The external optimizer is
modelled as a function `optimizer` from the objective to either an
optimized parameter pair or a propagating failure; when it raises, the
object keeps the partially updated state, exactly as a Python exception
would leave it.  (The `print` of the fitted parameters is an
observability side effect outside the model.) -/
def GPC.fit {n d : ℕ} (pinv : Matrix (Fin n) (Fin n) ℝ → Matrix (Fin n) (Fin n) ℝ)
    (optimizer : ((ℝ × ℝ) → ℝ) → Except PyError (ℝ × ℝ))
    (g : GPC n d) (X : Matrix (Fin n) (Fin d) ℝ) (y : Fin n → ℝ) :
    GPC n d × Except PyError Unit :=
  let g1 : GPC n d := { g with X := some X, y := some y }
  match optimizer (nll_fn pinv X y) with
  | .ok res_x => ({ g1 with theta := some res_x }, .ok ())
  | .error e => (g1, .error e)

/-- The object states reachable through the public lifecycle: a freshly
constructed object, and the post-state of any method call on a reachable
object. -/
inductive Reachable {n d : ℕ} : GPC n d → Prop where
  | init : Reachable (GPC.init n d)
  | fit (g : GPC n d) (pinv) (optimizer) (X) (y) (hg : Reachable g) :
      Reachable (GPC.fit pinv optimizer g X y).1
  | mean_var (g : GPC n d) {m : ℕ} (pinv) (X_test : Matrix (Fin m) (Fin d) ℝ)
      (hg : Reachable g) : Reachable (GPC.mean_var pinv g X_test).1
  | predict (g : GPC n d) {m : ℕ} (pinv) (X_test : Matrix (Fin m) (Fin d) ℝ)
      (hg : Reachable g) : Reachable (GPC.predict pinv g X_test).1
  | predict_params (g : GPC n d) {m : ℕ} (pinv) (moduleY)
      (X_test : Matrix (Fin m) (Fin d) ℝ) (hg : Reachable g) :
      Reachable (GPC.predict_params pinv g moduleY X_test).1

/-! ## Claim-side reference definitions

These transcribe the spec's description of the Posterior Mode Solver and
of the Marginal Likelihood Objective, for comparison against the
source-translated definitions above. -/

open Classical in
/-- The Posterior Mode Solver loop as the claim words it: repeat at most
`max_iter` times the update
`a_new = K_a · pinv(I + W·K_a) · (y - sigmoid(a) + W·a)` with
`W = diag(sigmoid(a)·(1-sigmoid(a)))`, stopping early exactly when no
coordinate of `|a_new - a|` exceeds `tol`, and return the final iterate. -/
def pm_claim_loop {n : ℕ} (pinv : Matrix (Fin n) (Fin n) ℝ → Matrix (Fin n) (Fin n) ℝ)
    (y : Fin n → ℝ) (K_a : Matrix (Fin n) (Fin n) ℝ) (tol : ℝ) :
    ℕ → (Fin n → ℝ) → (Fin n → ℝ)
  | 0, a => a
  | k + 1, a =>
    let W := Matrix.diagonal fun i => sigmoid (a i) * (1 - sigmoid (a i))
    let a_new := (K_a * pinv (1 + W * K_a)) *ᵥ fun i => y i - sigmoid (a i) + (W *ᵥ a) i
    if ∀ i, |a_new i - a i| ≤ tol then a_new
    else pm_claim_loop pinv y K_a tol k a_new

lemma pm_loop_eq_claim_loop {n : ℕ}
    (pinv : Matrix (Fin n) (Fin n) ℝ → Matrix (Fin n) (Fin n) ℝ)
    (y : Fin n → ℝ) (K_a : Matrix (Fin n) (Fin n) ℝ) (tol : ℝ) :
    ∀ (fuel : ℕ) (a : Fin n → ℝ),
      pm_loop pinv y K_a tol fuel a = pm_claim_loop pinv y K_a tol fuel a := by
  intro fuel
  induction fuel with
  | zero => intro a; rfl
  | succ k ih =>
    intro a
    show (if ∃ i, tol < |pm_step pinv y K_a a i - a i| then
            pm_loop pinv y K_a tol k (pm_step pinv y K_a a)
          else pm_step pinv y K_a a) = _
    show _ = (if ∀ i, |pm_step pinv y K_a a i - a i| ≤ tol then pm_step pinv y K_a a
              else pm_claim_loop pinv y K_a tol k (pm_step pinv y K_a a))
    by_cases h : ∀ i, |pm_step pinv y K_a a i - a i| ≤ tol
    · rw [if_neg (by push_neg; exact h), if_pos h]
    · rw [if_pos (by push_neg at h; obtain ⟨i, hi⟩ := h; exact ⟨i, hi⟩), if_neg h, ih]

/-- C4: `posterior_mode` starts from the all-zero vector and realizes
exactly the claim's iteration with its early stopping rule. -/
theorem posterior_mode_eq_claim_recursion {n d : ℕ}
    (pinv : Matrix (Fin n) (Fin n) ℝ → Matrix (Fin n) (Fin n) ℝ)
    (X : Matrix (Fin n) (Fin d) ℝ) (y : Fin n → ℝ) (K_a : Matrix (Fin n) (Fin n) ℝ)
    (max_iter : ℕ) (tol : ℝ) :
    posterior_mode pinv X y K_a max_iter tol
      = pm_claim_loop pinv y K_a tol max_iter (fun _ => 0) :=
  pm_loop_eq_claim_loop pinv y K_a tol max_iter (fun _ => 0)

/-- C5: with `max_iter = 0` the solver performs no iterations and
returns the initial all-zero vector. -/
theorem posterior_mode_zero_iter {n d : ℕ}
    (pinv : Matrix (Fin n) (Fin n) ℝ → Matrix (Fin n) (Fin n) ℝ)
    (X : Matrix (Fin n) (Fin d) ℝ) (y : Fin n → ℝ) (K_a : Matrix (Fin n) (Fin n) ℝ)
    (tol : ℝ) :
    posterior_mode pinv X y K_a 0 tol = fun _ => 0 :=
  rfl

lemma pm_loop_iterates {n : ℕ}
    (pinv : Matrix (Fin n) (Fin n) ℝ → Matrix (Fin n) (Fin n) ℝ)
    (y : Fin n → ℝ) (K_a : Matrix (Fin n) (Fin n) ℝ) (tol : ℝ) :
    ∀ (fuel : ℕ) (a : Fin n → ℝ),
      ∃ k ≤ fuel, pm_loop pinv y K_a tol fuel a = (pm_step pinv y K_a)^[k] a := by
  intro fuel
  induction fuel with
  | zero => exact fun a => ⟨0, le_rfl, rfl⟩
  | succ f ih =>
    intro a
    show ∃ k ≤ f + 1,
      (if ∃ i, tol < |pm_step pinv y K_a a i - a i| then
          pm_loop pinv y K_a tol f (pm_step pinv y K_a a)
        else pm_step pinv y K_a a) = (pm_step pinv y K_a)^[k] a
    by_cases h : ∃ i, tol < |pm_step pinv y K_a a i - a i|
    · obtain ⟨k, hk, hval⟩ := ih (pm_step pinv y K_a a)
      refine ⟨k + 1, Nat.succ_le_succ hk, ?_⟩
      rw [if_pos h, hval, Function.iterate_succ_apply]
    · exact ⟨1, Nat.le_add_left 1 f, by rw [if_neg h]; rfl⟩

/-- C6: the solver always terminates with a value — it is a total
function of its inputs, raising no error — and that value is the result
of at most `max_iter` applications of the Newton update to the zero
vector, even when the tolerance was never met. -/
theorem posterior_mode_iterates_bounded {n d : ℕ}
    (pinv : Matrix (Fin n) (Fin n) ℝ → Matrix (Fin n) (Fin n) ℝ)
    (X : Matrix (Fin n) (Fin d) ℝ) (y : Fin n → ℝ) (K_a : Matrix (Fin n) (Fin n) ℝ)
    (max_iter : ℕ) (tol : ℝ) :
    ∃ k ≤ max_iter,
      posterior_mode pinv X y K_a max_iter tol = (pm_step pinv y K_a)^[k] (fun _ => 0) :=
  pm_loop_iterates pinv y K_a tol max_iter (fun _ => 0)

/-- The Laplace-approximated log marginal likelihood exactly as the
claim words it:
`ll = -0.5·a_h^T·K_a^{-1}·a_h - 0.5·logdet(K_a) - 0.5·logdet(W + K_a^{-1}) + y^T·a_h - Σ log(1+exp(a_h))`,
with `K_a = Kernel(X,X,theta) + nu·I` (`nu = 1e-5`), `a_h` the posterior
mode for that `K_a`, `W` built from `a_h`, and each `logdet` the log of
the absolute determinant. -/
def ll_claim {n d : ℕ} (pinv : Matrix (Fin n) (Fin n) ℝ → Matrix (Fin n) (Fin n) ℝ)
    (X : Matrix (Fin n) (Fin d) ℝ) (y : Fin n → ℝ) (theta : ℝ × ℝ) : ℝ :=
  let K_a := K_ X theta (1e-5)
  let a_h := posterior_mode pinv X y K_a 10 (1e-9)
  let W := W_ a_h
  (-0.5 * (Matrix.vecMul a_h K_a⁻¹ ⬝ᵥ a_h)
    - 0.5 * Real.log |K_a.det|
    - 0.5 * Real.log |(W + K_a⁻¹).det|
    + y ⬝ᵥ a_h
    - ∑ i, Real.log (1 + Real.exp (a_h i)))

/-- C7: the objective returned by `nll_fn` evaluates, at every `theta`,
to the negation of the claim's log marginal likelihood formula. -/
theorem nll_fn_eq_neg_ll_formula {n d : ℕ}
    (pinv : Matrix (Fin n) (Fin n) ℝ → Matrix (Fin n) (Fin n) ℝ)
    (X : Matrix (Fin n) (Fin d) ℝ) (y : Fin n → ℝ) (theta : ℝ × ℝ) :
    nll_fn pinv X y theta = -(ll_claim pinv X y theta) :=
  rfl

/-- C8: every diagonal entry of the full covariance matrix `K_` equals
the constant `signal_std² + nu` returned by the diagonal-only fast path. -/
theorem K_diagonal_eq_fast_path {n d : ℕ} (X : Matrix (Fin n) (Fin d) ℝ)
    (theta : ℝ × ℝ) (nu : ℝ) (i : Fin n) :
    K_ X theta nu i i = K_diag theta nu ∧ K_diag theta nu = theta.2 ^ 2 + nu := by
  refine ⟨?_, rfl⟩
  have hsq : sqdist X X i i = 0 := by
    have h2 : (∑ l, X i l ^ 2) = ∑ l, X i l * X i l := by
      refine Finset.sum_congr rfl fun l _ => ?_
      ring
    simp only [sqdist, Matrix.mul_apply, Matrix.transpose_apply, h2]
    ring
  simp only [K_, K_diag, exp_kernel, Matrix.add_apply, Matrix.smul_apply,
    Matrix.one_apply_eq, hsq, mul_zero, Real.exp_zero, mul_one, smul_eq_mul]

/-- C2: on a freshly constructed (unfitted) model, each of the three
predictive operations surfaces an error to the caller instead of
returning a value: reading the never-assigned training attributes
raises, which is how the code realizes the spec's `NotFittedError`. -/
theorem unfitted_predictive_calls_error {n d m : ℕ}
    (pinv : Matrix (Fin n) (Fin n) ℝ → Matrix (Fin n) (Fin n) ℝ)
    (X_test : Matrix (Fin m) (Fin d) ℝ) (moduleY : Fin n → ℝ) :
    (GPC.mean_var pinv (GPC.init n d) X_test).2 = .error .attributeError ∧
    (GPC.predict pinv (GPC.init n d) X_test).2 = .error .attributeError ∧
    (GPC.predict_params pinv (GPC.init n d) moduleY X_test).2 = .error .attributeError :=
  ⟨rfl, rfl, rfl⟩

lemma mean_var_fst {n d m : ℕ} (pinv : Matrix (Fin n) (Fin n) ℝ → Matrix (Fin n) (Fin n) ℝ)
    (g : GPC n d) (X_test : Matrix (Fin m) (Fin d) ℝ) :
    (GPC.mean_var pinv g X_test).1 = g := by
  rcases g with ⟨gX, gy, gθ⟩
  cases gX <;> cases gy <;> cases gθ <;> rfl

lemma predict_fst {n d m : ℕ} (pinv : Matrix (Fin n) (Fin n) ℝ → Matrix (Fin n) (Fin n) ℝ)
    (g : GPC n d) (X_test : Matrix (Fin m) (Fin d) ℝ) :
    (GPC.predict pinv g X_test).1 = g := by
  rcases g with ⟨gX, gy, gθ⟩
  cases gX <;> cases gy <;> cases gθ <;> rfl

lemma predict_params_fst {n d m : ℕ}
    (pinv : Matrix (Fin n) (Fin n) ℝ → Matrix (Fin n) (Fin n) ℝ)
    (g : GPC n d) (moduleY : Fin n → ℝ) (X_test : Matrix (Fin m) (Fin d) ℝ) :
    (GPC.predict_params pinv g moduleY X_test).1 = g := by
  rcases g with ⟨gX, gy, gθ⟩
  cases gX <;> cases gy <;> cases gθ <;> rfl

/-- C10: the three predictive operations leave the model object exactly
as they found it — their post-call state equals the pre-call state, for
every model (fitted or not) and every input. -/
theorem predictive_calls_preserve_state {n d m : ℕ}
    (pinv : Matrix (Fin n) (Fin n) ℝ → Matrix (Fin n) (Fin n) ℝ)
    (g : GPC n d) (moduleY : Fin n → ℝ) (X_test : Matrix (Fin m) (Fin d) ℝ) :
    (GPC.mean_var pinv g X_test).1 = g ∧
    (GPC.predict pinv g X_test).1 = g ∧
    (GPC.predict_params pinv g moduleY X_test).1 = g :=
  ⟨mean_var_fst pinv g X_test, predict_fst pinv g X_test,
    predict_params_fst pinv g moduleY X_test⟩

/-- The claim's "unfitted" lifecycle state: none of `X`, `y`, `theta`
is set. -/
def FullyUnset {n d : ℕ} (g : GPC n d) : Prop :=
  g.X = none ∧ g.y = none ∧ g.theta = none

/-- The claim's "fitted" lifecycle state: all of `X`, `y`, `theta` are
set. -/
def FullySet {n d : ℕ} (g : GPC n d) : Prop :=
  g.X.isSome ∧ g.y.isSome ∧ g.theta.isSome

/-- A concrete 1-point, 1-dimensional training input. -/
def X0 : Matrix (Fin 1) (Fin 1) ℝ := fun _ _ => 0

/-- A concrete label vector (label 1). -/
def y0 : Fin 1 → ℝ := fun _ => 1

/-- A concrete module-level label vector distinct from `y0` (label 0). -/
def ymod0 : Fin 1 → ℝ := fun _ => 0

/-- A concrete hyperparameter pair. -/
def theta0 : ℝ × ℝ := (1, 1)

/-- A concrete pseudo-inverse instance: on the invertible matrices this
development ever feeds it, the Moore–Penrose pseudo-inverse coincides
with the matrix inverse. -/
def pinv0 : Matrix (Fin 1) (Fin 1) ℝ → Matrix (Fin 1) (Fin 1) ℝ := fun A => A⁻¹

/-- The model object left behind by a `fit` call whose external
optimizer run raised. -/
def gBad : GPC 1 1 :=
  (GPC.fit pinv0 (fun _ => .error .linAlgError) (GPC.init 1 1) X0 y0).1

/-- C3 counterexample: a `fit` whose optimizer step fails leaves a
reachable model state that is neither unfitted (its `X` and `y` are
set) nor fitted (its `theta` is not set): the claim's two-state
dichotomy is violated. -/
theorem failed_fit_partial_state :
    Reachable gBad ∧ ¬ FullyUnset gBad ∧ ¬ FullySet gBad := by
  refine ⟨Reachable.fit (GPC.init 1 1) pinv0 _ X0 y0 Reachable.init, ?_, ?_⟩
  · intro h
    simpa [gBad, GPC.fit, GPC.init, FullyUnset] using h.1
  · intro h
    simpa [gBad, GPC.fit, GPC.init, FullySet] using h.2.2

/-- C3 amended: every reachable model state is in one of *three*
classes: fully unset, fully set, or — after a `fit` whose optimizer
raised, when no earlier fit had succeeded — partially set with `X` and
`y` assigned but `theta` still unset. -/
theorem reachable_state_trichotomy {n d : ℕ} (g : GPC n d) (hg : Reachable g) :
    FullyUnset g ∨ FullySet g ∨ (g.X.isSome ∧ g.y.isSome ∧ g.theta = none) := by
  induction hg with
  | init => exact Or.inl ⟨rfl, rfl, rfl⟩
  | fit g pinv optimizer X y hg ih =>
    cases h : optimizer (nll_fn pinv X y) with
    | ok res_x =>
      refine Or.inr (Or.inl ?_)
      simp [GPC.fit, h, FullySet]
    | error e =>
      rcases ih with h1 | h2 | h3
      · exact Or.inr (Or.inr (by simp [GPC.fit, h, h1.2.2]))
      · refine Or.inr (Or.inl ?_)
        refine ⟨by simp [GPC.fit, h], by simp [GPC.fit, h], ?_⟩
        simpa [GPC.fit, h] using h2.2.2
      · exact Or.inr (Or.inr (by simp [GPC.fit, h, h3.2.2]))
  | mean_var g pinv X_test hg ih => rw [mean_var_fst]; exact ih
  | predict g pinv X_test hg ih => rw [predict_fst]; exact ih
  | predict_params g pinv moduleY X_test hg ih => rw [predict_params_fst]; exact ih

/-- Witness for C3's amended theorem at the freshly constructed model. -/
theorem reachable_state_trichotomy_witness :
    FullyUnset (GPC.init 1 1) ∨ FullySet (GPC.init 1 1) ∨
      ((GPC.init 1 1).X.isSome ∧ (GPC.init 1 1).y.isSome ∧ (GPC.init 1 1).theta = none) :=
  reachable_state_trichotomy (GPC.init 1 1) Reachable.init

/-! ## Positivity facts about the sigmoid -/

lemma sigmoid_pos (x : ℝ) : 0 < sigmoid x := by
  unfold sigmoid
  positivity

lemma sigmoid_lt_one (x : ℝ) : sigmoid x < 1 := by
  unfold sigmoid
  rw [div_lt_one (by positivity)]
  have h := Real.exp_pos (-x)
  linarith

lemma sigmoid_weight_pos (x : ℝ) : 0 < sigmoid x * (1 - sigmoid x) :=
  mul_pos (sigmoid_pos x) (sub_pos.2 (sigmoid_lt_one x))

/-! ## Positive semidefiniteness of the squared exponential kernel

The route: a Gram matrix of feature vectors has a nonnegative quadratic
form; entrywise powers of an inner product are again inner products of
(tensor-power) features; the exponential series then exhibits
`exp ⟪·,·⟫` as a limit of nonnegative quadratic forms; finally the
squared exponential kernel factors as `D · exp ⟪·,·⟫ · D` with `D` a
positive diagonal rescaling absorbed into the test vector. -/

lemma gram_quadform_nonneg {n : ℕ} {ι : Type*} [Fintype ι]
    (v : Fin n → ι → ℝ) (c : Fin n → ℝ) :
    0 ≤ ∑ i, ∑ j, c i * c j * ∑ l, v i l * v j l := by
  have h : ∑ i, ∑ j, c i * c j * ∑ l, v i l * v j l
      = ∑ l, (∑ i, c i * v i l) ^ 2 := by
    calc ∑ i, ∑ j, c i * c j * ∑ l, v i l * v j l
        = ∑ i, ∑ j, ∑ l, (c i * v i l) * (c j * v j l) := by
          refine Finset.sum_congr rfl fun i _ => Finset.sum_congr rfl fun j _ => ?_
          rw [Finset.mul_sum]
          exact Finset.sum_congr rfl fun l _ => by ring
      _ = ∑ i, ∑ l, ∑ j, (c i * v i l) * (c j * v j l) :=
          Finset.sum_congr rfl fun i _ => Finset.sum_comm
      _ = ∑ l, ∑ i, ∑ j, (c i * v i l) * (c j * v j l) := Finset.sum_comm
      _ = ∑ l, (∑ i, c i * v i l) * (∑ j, c j * v j l) := by
          exact Finset.sum_congr rfl fun l _ => (Finset.sum_mul_sum _ _ _ _).symm
      _ = ∑ l, (∑ i, c i * v i l) ^ 2 := by
          exact Finset.sum_congr rfl fun l _ => (sq _).symm
  rw [h]
  exact Finset.sum_nonneg fun l _ => sq_nonneg _

set_option maxHeartbeats 1000000 in
lemma gram_pow_quadform_nonneg {n d : ℕ} (v : Fin n → Fin d → ℝ) (c : Fin n → ℝ)
    (k : ℕ) :
    0 ≤ ∑ i, ∑ j, c i * c j * (∑ l, v i l * v j l) ^ k := by
  have h : ∀ i j : Fin n, (∑ l, v i l * v j l) ^ k
      = ∑ p : Fin k → Fin d, (∏ t, v i (p t)) * (∏ t, v j (p t)) := by
    intro i j
    rw [Fintype.sum_pow]
    exact Finset.sum_congr rfl fun p _ => Finset.prod_mul_distrib
  have key : ∑ i, ∑ j, c i * c j * (∑ l, v i l * v j l) ^ k
      = ∑ i, ∑ j, c i * c j * ∑ p : Fin k → Fin d, (∏ t, v i (p t)) * (∏ t, v j (p t)) :=
    Finset.sum_congr rfl fun i _ => Finset.sum_congr rfl fun j _ => by rw [h i j]
  rw [key]
  exact gram_quadform_nonneg _ c

lemma exp_gram_quadform_nonneg {n d : ℕ} (v : Fin n → Fin d → ℝ) (c : Fin n → ℝ) :
    0 ≤ ∑ i, ∑ j, c i * c j * Real.exp (∑ l, v i l * v j l) := by
  have hexp : ∀ t : ℝ, Real.exp t = tsum (fun k : ℕ => t ^ k / (Nat.factorial k : ℝ)) := by
    intro t
    rw [Real.exp_eq_exp_ℝ, NormedSpace.exp_eq_tsum_div]
  have hsumm : ∀ i j : Fin n,
      Summable (fun k : ℕ =>
        c i * c j * ((∑ l, v i l * v j l) ^ k / (Nat.factorial k : ℝ))) :=
    fun i j => (Real.summable_pow_div_factorial (∑ l, v i l * v j l)).mul_left _
  have hterm : ∀ k : ℕ,
      0 ≤ ∑ i, ∑ j, c i * c j * ((∑ l, v i l * v j l) ^ k / (Nat.factorial k : ℝ)) := by
    intro k
    have hfac : ∑ i, ∑ j, c i * c j * ((∑ l, v i l * v j l) ^ k / (Nat.factorial k : ℝ))
        = (∑ i, ∑ j, c i * c j * (∑ l, v i l * v j l) ^ k) / (Nat.factorial k : ℝ) := by
      rw [Finset.sum_div]
      refine Finset.sum_congr rfl fun i _ => ?_
      rw [Finset.sum_div]
      exact Finset.sum_congr rfl fun j _ => (mul_div_assoc _ _ _).symm
    rw [hfac]
    exact div_nonneg (gram_pow_quadform_nonneg v c k) (Nat.cast_nonneg _)
  calc (0:ℝ)
      ≤ tsum (fun k : ℕ => ∑ i, ∑ j,
          c i * c j * ((∑ l, v i l * v j l) ^ k / (Nat.factorial k : ℝ))) :=
        tsum_nonneg hterm
    _ = ∑ i, tsum (fun k : ℕ => ∑ j,
          c i * c j * ((∑ l, v i l * v j l) ^ k / (Nat.factorial k : ℝ))) :=
        tsum_sum fun i _ => summable_sum fun j _ => hsumm i j
    _ = ∑ i, ∑ j, tsum (fun k : ℕ =>
          c i * c j * ((∑ l, v i l * v j l) ^ k / (Nat.factorial k : ℝ))) :=
        Finset.sum_congr rfl fun i _ => tsum_sum fun j _ => hsumm i j
    _ = ∑ i, ∑ j,
          c i * c j * tsum (fun k : ℕ => (∑ l, v i l * v j l) ^ k / (Nat.factorial k : ℝ)) :=
        Finset.sum_congr rfl fun i _ => Finset.sum_congr rfl fun j _ => tsum_mul_left
    _ = ∑ i, ∑ j, c i * c j * Real.exp (∑ l, v i l * v j l) :=
        Finset.sum_congr rfl fun i _ => Finset.sum_congr rfl fun j _ => by
          rw [hexp]

lemma exp_kernel_quadform_nonneg {n d : ℕ} (X : Matrix (Fin n) (Fin d) ℝ)
    (theta : ℝ × ℝ) (hl : theta.1 ≠ 0) (c : Fin n → ℝ) :
    0 ≤ ∑ i, ∑ j, c i * c j * exp_kernel X X theta i j := by
  have hentry : ∀ i j : Fin n,
      c i * c j * exp_kernel X X theta i j
        = theta.2 ^ 2 *
            ((c i * Real.exp (-(∑ l, X i l ^ 2) / (2 * theta.1 ^ 2)))
              * (c j * Real.exp (-(∑ l, X j l ^ 2) / (2 * theta.1 ^ 2)))
              * Real.exp (∑ l, (X i l / theta.1) * (X j l / theta.1))) := by
    intro i j
    have hxx : (X * Xᵀ) i j = ∑ l, X i l * X j l := by
      simp [Matrix.mul_apply, Matrix.transpose_apply]
    have hz : ∑ l, (X i l / theta.1) * (X j l / theta.1)
        = (∑ l, X i l * X j l) / theta.1 ^ 2 := by
      rw [Finset.sum_div]
      refine Finset.sum_congr rfl fun l _ => ?_
      rw [div_mul_div_comm, ← pow_two]
    have harg : -0.5 / theta.1 ^ 2 * sqdist X X i j
        = -(∑ l, X i l ^ 2) / (2 * theta.1 ^ 2) + -(∑ l, X j l ^ 2) / (2 * theta.1 ^ 2)
          + ∑ l, (X i l / theta.1) * (X j l / theta.1) := by
      rw [hz]
      show -0.5 / theta.1 ^ 2 *
          ((∑ l, X i l ^ 2) + (∑ l, X j l ^ 2) - 2 * (X * Xᵀ) i j) = _
      rw [hxx]
      field_simp
      ring
    show c i * c j * (theta.2 ^ 2 * Real.exp (-0.5 / theta.1 ^ 2 * sqdist X X i j)) = _
    rw [harg, Real.exp_add, Real.exp_add]
    ring
  have hsum : ∑ i, ∑ j, c i * c j * exp_kernel X X theta i j
      = theta.2 ^ 2 * ∑ i, ∑ j,
          (c i * Real.exp (-(∑ l, X i l ^ 2) / (2 * theta.1 ^ 2)))
            * (c j * Real.exp (-(∑ l, X j l ^ 2) / (2 * theta.1 ^ 2)))
            * Real.exp (∑ l, (X i l / theta.1) * (X j l / theta.1)) := by
    rw [Finset.mul_sum]
    refine Finset.sum_congr rfl fun i _ => ?_
    rw [Finset.mul_sum]
    exact Finset.sum_congr rfl fun j _ => hentry i j
  rw [hsum]
  refine mul_nonneg (sq_nonneg _) ?_
  exact exp_gram_quadform_nonneg (fun i l => X i l / theta.1)
    (fun i => c i * Real.exp (-(∑ l, X i l ^ 2) / (2 * theta.1 ^ 2)))

lemma sqdist_symm {n d : ℕ} (X : Matrix (Fin n) (Fin d) ℝ) (i j : Fin n) :
    sqdist X X i j = sqdist X X j i := by
  have hxx : ∀ a b : Fin n, (X * Xᵀ) a b = ∑ l, X a l * X b l := by
    intro a b
    simp [Matrix.mul_apply, Matrix.transpose_apply]
  simp only [sqdist, hxx]
  have : ∑ l, X i l * X j l = ∑ l, X j l * X i l :=
    Finset.sum_congr rfl fun l _ => mul_comm _ _
  rw [this]
  ring

lemma exp_kernel_self_symm {n d : ℕ} (X : Matrix (Fin n) (Fin d) ℝ) (theta : ℝ × ℝ)
    (i j : Fin n) : exp_kernel X X theta i j = exp_kernel X X theta j i := by
  simp only [exp_kernel, sqdist_symm X i j]

lemma K_transpose_eq {n d : ℕ} (X : Matrix (Fin n) (Fin d) ℝ) (theta : ℝ × ℝ) (nu : ℝ) :
    (K_ X theta nu)ᵀ = K_ X theta nu := by
  unfold K_
  rw [Matrix.transpose_add, Matrix.transpose_smul, Matrix.transpose_one]
  congr 1
  ext i j
  exact exp_kernel_self_symm X theta j i

lemma dotProduct_mulVec_expand {n : ℕ} (M : Matrix (Fin n) (Fin n) ℝ) (x : Fin n → ℝ) :
    x ⬝ᵥ M *ᵥ x = ∑ i, ∑ j, x i * x j * M i j := by
  simp only [Matrix.dotProduct, Matrix.mulVec, Finset.mul_sum]
  exact Finset.sum_congr rfl fun i _ => Finset.sum_congr rfl fun j _ => by ring

lemma exp_kernel_posSemidef {n d : ℕ} (X : Matrix (Fin n) (Fin d) ℝ) (theta : ℝ × ℝ)
    (hl : theta.1 ≠ 0) : (exp_kernel X X theta).PosSemidef := by
  constructor
  · ext i j
    simp only [Matrix.conjTranspose_apply, star_trivial]
    exact exp_kernel_self_symm X theta j i
  · intro x
    rw [star_trivial, dotProduct_mulVec_expand]
    exact exp_kernel_quadform_nonneg X theta hl x

lemma smul_one_posSemidef {n : ℕ} {nu : ℝ} (hnu : 0 ≤ nu) :
    (nu • (1 : Matrix (Fin n) (Fin n) ℝ)).PosSemidef := by
  have h : nu • (1 : Matrix (Fin n) (Fin n) ℝ) = Matrix.diagonal fun _ => nu := by
    ext i j
    by_cases hij : i = j <;>
      simp [Matrix.smul_apply, Matrix.one_apply, Matrix.diagonal_apply, hij]
  rw [h]
  exact Matrix.PosSemidef.diagonal fun _ => hnu

lemma smul_one_posDef {n : ℕ} {nu : ℝ} (hnu : 0 < nu) :
    (nu • (1 : Matrix (Fin n) (Fin n) ℝ)).PosDef := by
  have h : nu • (1 : Matrix (Fin n) (Fin n) ℝ) = Matrix.diagonal fun _ => nu := by
    ext i j
    by_cases hij : i = j <;>
      simp [Matrix.smul_apply, Matrix.one_apply, Matrix.diagonal_apply, hij]
  rw [h]
  exact Matrix.PosDef.diagonal fun _ => hnu

lemma K_posSemidef {n d : ℕ} (X : Matrix (Fin n) (Fin d) ℝ) (theta : ℝ × ℝ)
    (hl : theta.1 ≠ 0) {nu : ℝ} (hnu : 0 ≤ nu) : (K_ X theta nu).PosSemidef :=
  (exp_kernel_posSemidef X theta hl).add (smul_one_posSemidef hnu)

lemma K_posDef {n d : ℕ} (X : Matrix (Fin n) (Fin d) ℝ) (theta : ℝ × ℝ)
    (hl : theta.1 ≠ 0) {nu : ℝ} (hnu : 0 < nu) : (K_ X theta nu).PosDef :=
  Matrix.PosDef.posSemidef_add (exp_kernel_posSemidef X theta hl) (smul_one_posDef hnu)

/-- C9: for positive length scale and nonnegative signal deviation
(and nonnegative jitter `nu`, `1e-5` at every call site), the covariance
matrix `K_ = Kernel(X,X,theta) + nu·I` is symmetric and positive
semi-definite. -/
theorem K_symm_posSemidef {n d : ℕ} (X : Matrix (Fin n) (Fin d) ℝ) (theta : ℝ × ℝ)
    (nu : ℝ) (hl : 0 < theta.1) (hs : 0 ≤ theta.2) (hnu : 0 ≤ nu) :
    (K_ X theta nu)ᵀ = K_ X theta nu ∧ (K_ X theta nu).PosSemidef :=
  ⟨K_transpose_eq X theta nu, K_posSemidef X theta hl.ne' hnu⟩

/-- Witness for C9 at a concrete input. -/
theorem K_symm_posSemidef_witness :
    ((0:ℝ) < theta0.1 ∧ (0:ℝ) ≤ theta0.2 ∧ (0:ℝ) ≤ (1e-5 : ℝ)) ∧
      ((K_ X0 theta0 (1e-5))ᵀ = K_ X0 theta0 (1e-5) ∧ (K_ X0 theta0 (1e-5)).PosSemidef) :=
  ⟨⟨by norm_num [theta0], by norm_num [theta0], by norm_num⟩,
    K_symm_posSemidef X0 theta0 (1e-5) (by norm_num [theta0]) (by norm_num [theta0])
      (by norm_num)⟩

lemma W_posDef {n : ℕ} (a : Fin n → ℝ) : (W_ a).PosDef := by
  unfold W_
  exact Matrix.PosDef.diagonal fun i => sigmoid_weight_pos (a i)

lemma W_det_isUnit {n : ℕ} (a : Fin n → ℝ) : IsUnit (W_ a).det :=
  isUnit_iff_ne_zero.mpr (W_posDef a).det_pos.ne'

lemma R_posDef {n d : ℕ} (X : Matrix (Fin n) (Fin d) ℝ) (theta : ℝ × ℝ)
    (hl : theta.1 ≠ 0) (a : Fin n → ℝ) :
    ((W_ a)⁻¹ + K_ X theta (1e-5)).PosDef :=
  ((W_posDef a).inv).add (K_posDef X theta hl (by norm_num))

lemma R_det_isUnit {n d : ℕ} (X : Matrix (Fin n) (Fin d) ℝ) (theta : ℝ × ℝ)
    (hl : theta.1 ≠ 0) (a : Fin n → ℝ) :
    IsUnit ((W_ a)⁻¹ + K_ X theta (1e-5)).det :=
  isUnit_iff_ne_zero.mpr (R_posDef X theta hl a).det_pos.ne'

/-- C1 amended: the two predictive accessors agree whenever the
module-level `y` read by `predict_params` coincides with the model's own
training labels; the remaining divergence — exact inverses in
`predict_params` against pseudo-inverses in `mean_var` — is immaterial
because the weight matrix and `W⁻¹ + K_a` are invertible (the latter
positive definite, using `length_scale > 0`), where the Moore–Penrose
pseudo-inverse coincides with the inverse. -/
theorem predict_params_eq_mean_var_of_moduleY_eq {n d m : ℕ}
    (pinv : Matrix (Fin n) (Fin n) ℝ → Matrix (Fin n) (Fin n) ℝ)
    (hp : ∀ A : Matrix (Fin n) (Fin n) ℝ, IsUnit A.det → pinv A = A⁻¹)
    (X : Matrix (Fin n) (Fin d) ℝ) (y moduleY : Fin n → ℝ) (theta : ℝ × ℝ)
    (hl : 0 < theta.1) (hy : moduleY = y) (X_test : Matrix (Fin m) (Fin d) ℝ) :
    predict_params_core pinv X moduleY theta X_test
      = mean_var_core pinv X y theta X_test := by
  subst hy
  simp only [predict_params_core, mean_var_core]
  rw [hp (W_ (posterior_mode pinv X moduleY (K_ X theta (1e-5)) 10 (1e-9)))
        (W_det_isUnit _),
      hp ((W_ (posterior_mode pinv X moduleY (K_ X theta (1e-5)) 10 (1e-9)))⁻¹
            + K_ X theta (1e-5))
        (R_det_isUnit X theta hl.ne' _)]

/-- Witness for C1's amended theorem at a concrete instance. -/
theorem predict_params_eq_mean_var_witness :
    (∀ A : Matrix (Fin 1) (Fin 1) ℝ, IsUnit A.det → pinv0 A = A⁻¹) ∧
      (0:ℝ) < theta0.1 ∧
      predict_params_core pinv0 X0 y0 theta0 X0 = mean_var_core pinv0 X0 y0 theta0 X0 :=
  ⟨fun _ _ => rfl, by norm_num [theta0],
    predict_params_eq_mean_var_of_moduleY_eq pinv0 (fun _ _ => rfl) X0 y0 y0 theta0
      (by norm_num [theta0]) rfl X0⟩

/-- A fitted model instance: training point `X0`, labels `y0`,
hyperparameters `theta0`. -/
def gFit : GPC 1 1 := ⟨some X0, some y0, some theta0⟩

/-- C1 counterexample: on the fitted model `gFit`, with the notebook's
module-level `y` holding `ymod0 ≠ y0`, the two accessors return
different results: `predict_params` reads the module-level `y` while
`mean_var` reads `self.y`, so their predictive means already have
opposite signs. -/
theorem predict_params_disagrees_with_mean_var :
    (GPC.predict_params pinv0 gFit ymod0 X0).2 ≠ (GPC.mean_var pinv0 gFit X0).2 := by
  intro h
  have h' : predict_params_core pinv0 X0 ymod0 theta0 X0
      = mean_var_core pinv0 X0 y0 theta0 X0 := by
    simpa [GPC.predict_params, GPC.mean_var, gFit] using h
  have h0 := congrFun (congrArg Prod.fst h') 0
  have hks : exp_kernel X0 X0 theta0 0 0 = 1 := by
    norm_num [exp_kernel, sqdist, X0, theta0, Matrix.mul_apply]
  simp only [predict_params_core, mean_var_core, Matrix.mulVec, Matrix.dotProduct,
    Fin.sum_univ_one, Matrix.transpose_apply, hks, one_mul] at h0
  have hpos := sigmoid_pos ((posterior_mode pinv0 X0 ymod0 (K_ X0 theta0 (1e-5)) 10 (1e-9)) 0)
  have hlt := sigmoid_lt_one ((posterior_mode pinv0 X0 y0 (K_ X0 theta0 (1e-5)) 10 (1e-9)) 0)
  rw [show ymod0 0 = 0 from rfl, show y0 0 = 1 from rfl] at h0
  linarith
